import Mathlib

/-!
Verification of the task-store core of a command-line hierarchical todo
manager (src/main.rs).  The store is a `HashMap<u32, TodoItem>` together
with a `next_id : u32` counter; the operations are insertion with identity
assignment, completion flag flips, recursive cascading deletion, and a
JSON persistence round-trip.

Embedding conventions:
* the hash map is embedded as an association list `List (Nat × TodoItem)`;
  a real `HashMap` state always has pairwise-distinct keys, which is
  expressed by `KeysNodup` where a proof needs it, and iteration order is
  fixed by the list (the Rust iteration order is unspecified; every
  property proved below is insensitive to it);
* `u32` is embedded as `Nat` (the counter is only ever incremented, and
  no claim depends on wrap-around behaviour);
* `chrono::Utc::now()` is an external input, so `add_item` receives the
  formatted timestamp string as an extra argument;
* `delete_item` recurses through child links before removing its argument
  and genuinely diverges on cyclic data, so it is embedded with explicit
  fuel (`delete_fuel`), `none` meaning that the recursion did not finish
  within the given fuel; `delete_item` runs it with fuel `|items| + 1`,
  which is proved sufficient whenever the parent graph reachable from the
  deleted id is acyclic.
-/

/-- The `TodoItem` struct of src/main.rs (lines 7-14). -/
structure TodoItem where
  id : Nat
  text : String
  completed : Bool
  parent_id : Option Nat
  created_at : String
deriving DecidableEq, Repr

/-- The `TodoList` struct of src/main.rs (lines 16-20): the `HashMap` is
embedded as an association list from key to item. -/
structure TodoList where
  items : List (Nat × TodoItem)
  next_id : Nat
deriving DecidableEq, Repr

/-- `HashMap::get` / `get_mut` lookup on the association list. -/
def lookupKey (its : List (Nat × TodoItem)) (k : Nat) : Option TodoItem :=
  (its.find? (fun kt => kt.1 == k)).map (fun kt => kt.2)

/-- `HashMap::contains_key`. -/
def containsKey (its : List (Nat × TodoItem)) (k : Nat) : Bool :=
  its.any (fun kt => kt.1 == k)

/-- `HashMap::remove`: drops every binding of key `k` (a real map has at
most one). -/
def removeKey (its : List (Nat × TodoItem)) (k : Nat) : List (Nat × TodoItem) :=
  its.filter (fun kt => kt.1 != k)

/-- `HashMap::insert`: binds `k` to `v`, replacing any previous binding. -/
def insertKV (its : List (Nat × TodoItem)) (k : Nat) (v : TodoItem) :
    List (Nat × TodoItem) :=
  (k, v) :: its.filter (fun kt => kt.1 != k)

/-- `TodoList::new` (src/main.rs lines 23-28). -/
def TodoList.new : TodoList :=
  { items := [], next_id := 1 }

/-- `TodoList::add_item` (src/main.rs lines 30-42); the caller-side state
is threaded explicitly and the freshly formatted timestamp is a
parameter.  Returns the updated list and the returned id. -/
def TodoList.add_item (l : TodoList) (text : String) (parent_id : Option Nat)
    (created_at : String) : TodoList × Nat :=
  let id := l.next_id
  let item : TodoItem :=
    { id := id, text := text, completed := false, parent_id := parent_id,
      created_at := created_at }
  ({ items := insertKV l.items id item, next_id := l.next_id + 1 }, id)

/-- The in-place mutation performed through `get_mut` in
`complete_item`/`uncomplete_item`: the entry at key `k` has its
`completed` field set to `b`. -/
def setCompleted (its : List (Nat × TodoItem)) (k : Nat) (b : Bool) :
    List (Nat × TodoItem) :=
  its.map (fun kt => if kt.1 == k then (kt.1, { kt.2 with completed := b }) else kt)

/-- `TodoList::complete_item` (src/main.rs lines 44-51). -/
def TodoList.complete_item (l : TodoList) (id : Nat) : TodoList × Bool :=
  match lookupKey l.items id with
  | some _ => ({ items := setCompleted l.items id true, next_id := l.next_id }, true)
  | none => (l, false)

/-- `TodoList::uncomplete_item` (src/main.rs lines 53-60). -/
def TodoList.uncomplete_item (l : TodoList) (id : Nat) : TodoList × Bool :=
  match lookupKey l.items id with
  | some _ => ({ items := setCompleted l.items id false, next_id := l.next_id }, true)
  | none => (l, false)

/-- The `sub_items` vector computed at the top of `TodoList::delete_item`
(src/main.rs lines 64-68): the `id` fields of all values whose
`parent_id` equals `Some id`. -/
def subIds (l : TodoList) (id : Nat) : List Nat :=
  ((l.items.map (fun kt => kt.2)).filter (fun t => t.parent_id == some id)).map
    (fun t => t.id)

/-- `TodoList::delete_item` (src/main.rs lines 62-76) with explicit fuel
bounding the nesting depth of the recursion: first recursively deletes
every current value whose `parent_id` is `Some id` (the `for` loop over
`sub_items`, embedded as a state-threading fold that discards each
returned boolean), then removes the key `id` itself, returning whether a
binding was removed.  `none` means the recursion did not complete within
`fuel` nesting levels (the Rust original diverges on cyclic parent
data). -/
def delete_fuel : Nat → TodoList → Nat → Option (TodoList × Bool)
  | 0, _, _ => none
  | fuel + 1, l, id =>
    match (subIds l id).foldlM
        (fun acc c => (delete_fuel fuel acc c).map (fun r => r.1)) l with
    | none => none
    | some l1 =>
      some ({ items := removeKey l1.items id, next_id := l1.next_id },
            containsKey l1.items id)

/-- The `for sub_id in sub_items { self.delete_item(sub_id); }` loop of
`TodoList::delete_item` (src/main.rs lines 70-72): each recursive result
is threaded through, its boolean discarded. -/
def goSubs (fuel : Nat) (l : TodoList) (ids : List Nat) : Option TodoList :=
  ids.foldlM (fun acc c => (delete_fuel fuel acc c).map (fun r => r.1)) l

theorem delete_fuel_zero (l : TodoList) (id : Nat) : delete_fuel 0 l id = none := rfl

theorem delete_fuel_succ (fuel : Nat) (l : TodoList) (id : Nat) :
    delete_fuel (fuel + 1) l id =
      match goSubs fuel l (subIds l id) with
      | none => none
      | some l1 =>
        some ({ items := removeKey l1.items id, next_id := l1.next_id },
              containsKey l1.items id) := rfl

theorem goSubs_nil (fuel : Nat) (l : TodoList) : goSubs fuel l [] = some l := rfl

theorem goSubs_cons (fuel : Nat) (l : TodoList) (c : Nat) (rest : List Nat) :
    goSubs fuel l (c :: rest) =
      match delete_fuel fuel l c with
      | none => none
      | some r => goSubs fuel r.1 rest := by
  rw [goSubs, List.foldlM_cons]
  cases delete_fuel fuel l c with
  | none => rfl
  | some r => rfl

/-- `TodoList::delete_item` run with fuel `|items| + 1`, which suffices
whenever the parent graph reachable from `id` is acyclic (proved below). -/
def delete_item (l : TodoList) (id : Nat) : Option (TodoList × Bool) :=
  delete_fuel (l.items.length + 1) l id

/-- The `sub` branch of `main` (src/main.rs lines 191-212) after argument
parsing: validates that the parent exists before inserting.  Returns the
collection that ends up persisted and whether `save_todos` was invoked. -/
def subCommand (l : TodoList) (parent_id : Nat) (text : String)
    (created_at : String) : TodoList × Bool :=
  if containsKey l.items parent_id then
    ((l.add_item text (some parent_id) created_at).1, true)
  else
    (l, false)

/-- The `delete` branch of `main` (src/main.rs lines 253-272) after
argument parsing: `save_todos` is invoked only when `delete_item`
returns true.  Returns the collection that ends up persisted and whether
`save_todos` was invoked; `none` models a diverging `delete_item`. -/
def deleteCommand (l : TodoList) (id : Nat) : Option (TodoList × Bool) :=
  match delete_item l id with
  | none => none
  | some (l1, b) => some (if b then l1 else l, b)

/-! ## The parent graph and the store invariants -/

/-- The child edge of the id graph that `delete_item` recurses along:
`Descends l a b` holds when some stored value has `parent_id = Some a`
and `id = b`. -/
def Descends (l : TodoList) (a b : Nat) : Prop :=
  ∃ e ∈ l.items, e.2.parent_id = some a ∧ e.2.id = b

/-- Spec §3 invariant: every key of the mapping equals its task's own
`id` field. -/
def KeysMatch (l : TodoList) : Prop :=
  ∀ e ∈ l.items, e.1 = e.2.id

/-- A real `HashMap` state: the keys of the association list are
pairwise distinct. -/
def KeysNodup (l : TodoList) : Prop :=
  (l.items.map (fun e => e.1)).Nodup

/-- Spec §3 invariant: `next_id` is strictly greater than every id in
the mapping. -/
def NextIdGt (l : TodoList) : Prop :=
  ∀ e ∈ l.items, e.2.id < l.next_id

/-- The parent graph has no cycle (spec: "the parent graph is acyclic by
construction"). -/
def Acyclic (l : TodoList) : Prop :=
  ∀ x, ¬ Relation.TransGen (Descends l) x x

/-- No cycle of the parent graph is reachable from `id` by following
child links (this is all the cascade of `delete_item id` can explore). -/
def AcyclicFrom (l : TodoList) (id : Nat) : Prop :=
  ∀ x, Relation.ReflTransGen (Descends l) id x → ¬ Relation.TransGen (Descends l) x x

/-- The store invariants of spec §3 bundled: a well-formed map state,
key/id agreement, the `next_id` bound, and acyclicity of the parent
graph. -/
def StoreInv (l : TodoList) : Prop :=
  KeysNodup l ∧ KeysMatch l ∧ NextIdGt l ∧ Acyclic l

/-! ## Basic facts about the map primitives -/

theorem containsKey_iff {its : List (Nat × TodoItem)} {k : Nat} :
    containsKey its k = true ↔ ∃ e ∈ its, e.1 = k := by
  simp [containsKey]

theorem containsKey_eq_false_iff {its : List (Nat × TodoItem)} {k : Nat} :
    containsKey its k = false ↔ ∀ e ∈ its, e.1 ≠ k := by
  rw [← Bool.not_eq_true, containsKey_iff]
  push_neg
  exact Iff.rfl

theorem mem_removeKey {its : List (Nat × TodoItem)} {k : Nat} {e : Nat × TodoItem} :
    e ∈ removeKey its k ↔ e ∈ its ∧ e.1 ≠ k := by
  simp [removeKey]

theorem removeKey_sublist (its : List (Nat × TodoItem)) (k : Nat) :
    (removeKey its k).Sublist its :=
  List.filter_sublist its

theorem containsKey_removeKey_self (its : List (Nat × TodoItem)) (k : Nat) :
    containsKey (removeKey its k) k = false := by
  rw [containsKey_eq_false_iff]
  intro e he
  exact (mem_removeKey.mp he).2

theorem removeKey_eq_self {its : List (Nat × TodoItem)} {k : Nat}
    (h : containsKey its k = false) : removeKey its k = its := by
  rw [removeKey, List.filter_eq_self]
  intro e he
  simpa using containsKey_eq_false_iff.mp h e he

theorem containsKey_mono {its its' : List (Nat × TodoItem)} {k : Nat}
    (hsub : its' ⊆ its) (h : containsKey its' k = true) : containsKey its k = true := by
  rcases containsKey_iff.mp h with ⟨e, he, hk⟩
  exact containsKey_iff.mpr ⟨e, hsub he, hk⟩

theorem lookupKey_eq_none_iff {its : List (Nat × TodoItem)} {k : Nat} :
    lookupKey its k = none ↔ containsKey its k = false := by
  simp [lookupKey, containsKey, List.find?_eq_none]

theorem lookupKey_isSome_of_contains {its : List (Nat × TodoItem)} {k : Nat}
    (h : containsKey its k = true) : ∃ t, lookupKey its k = some t := by
  cases hl : lookupKey its k with
  | none => rw [lookupKey_eq_none_iff.mp hl] at h; cases h
  | some t => exact ⟨t, rfl⟩

theorem mem_of_lookupKey {its : List (Nat × TodoItem)} {k : Nat} {t : TodoItem}
    (h : lookupKey its k = some t) : (k, t) ∈ its := by
  rcases Option.map_eq_some'.mp h with ⟨⟨a, b⟩, hfind, hsnd⟩
  have hmem := List.mem_of_find?_eq_some hfind
  have hk : a = k := by simpa using List.find?_some hfind
  have hb : b = t := by simpa using hsnd
  rw [← hk, ← hb]
  exact hmem

theorem mem_subIds {l : TodoList} {id c : Nat} :
    c ∈ subIds l id ↔ Descends l id c := by
  constructor
  · intro h
    rcases List.mem_map.mp h with ⟨t, ht, hid⟩
    rcases List.mem_filter.mp ht with ⟨htm, hp⟩
    rcases List.mem_map.mp htm with ⟨e, he, hte⟩
    refine ⟨e, he, ?_, ?_⟩
    · rw [hte]; simpa using hp
    · rw [hte]; exact hid
  · rintro ⟨e, he, hp, hid⟩
    exact List.mem_map.mpr
      ⟨e.2, List.mem_filter.mpr ⟨List.mem_map.mpr ⟨e, he, rfl⟩, by simpa using hp⟩, hid⟩

theorem descends_mono {l l' : TodoList} (h : l'.items ⊆ l.items) {a b : Nat}
    (hd : Descends l' a b) : Descends l a b := by
  rcases hd with ⟨e, he, hp, hid⟩
  exact ⟨e, h he, hp, hid⟩

/-- A strictly parent-to-child increasing ranking certifies acyclicity;
used to discharge `Acyclic` on concrete collections. -/
theorem acyclic_of_ranking (l : TodoList) (r : Nat → Nat)
    (hr : ∀ e ∈ l.items, ∀ p, e.2.parent_id = some p → r p < r e.2.id) :
    Acyclic l := by
  have step : ∀ a b, Descends l a b → r a < r b := by
    rintro a b ⟨e, he, hp, hid⟩
    exact hid ▸ hr e he a hp
  have mono : ∀ a b, Relation.TransGen (Descends l) a b → r a < r b := by
    intro a b h
    induction h with
    | single h1 => exact step _ _ h1
    | tail _ h1 ih => exact ih.trans (step _ _ h1)
  intro x hx
  exact lt_irrefl _ (mono x x hx)

theorem acyclicFrom_of_acyclic {l : TodoList} (h : Acyclic l) (id : Nat) :
    AcyclicFrom l id :=
  fun x _ => h x

theorem containsKey_of_mem {its : List (Nat × TodoItem)} {e : Nat × TodoItem}
    (h : e ∈ its) : containsKey its e.1 = true :=
  containsKey_iff.mpr ⟨e, h, rfl⟩

theorem containsKey_false_mono {its its' : List (Nat × TodoItem)} {k : Nat}
    (hsub : its' ⊆ its) (h : containsKey its k = false) :
    containsKey its' k = false := by
  rw [containsKey_eq_false_iff] at h ⊢
  exact fun e he => h e (hsub he)

theorem containsKey_removeKey_ne {its : List (Nat × TodoItem)} {id k : Nat}
    (h : k ≠ id) : containsKey (removeKey its id) k = containsKey its k := by
  cases hc : containsKey its k with
  | false =>
    rw [containsKey_eq_false_iff] at hc ⊢
    exact fun e he => hc e (mem_removeKey.mp he).1
  | true =>
    rcases containsKey_iff.mp hc with ⟨e, he, hk⟩
    exact containsKey_iff.mpr ⟨e, mem_removeKey.mpr ⟨he, by rw [hk]; exact h⟩, hk⟩

theorem keysMatch_of_subset {l l' : TodoList} (hsub : l'.items ⊆ l.items)
    (h : KeysMatch l) : KeysMatch l' :=
  fun e he => h e (hsub he)

/-- Post-conditions of a completed `delete_fuel` / `goSubs` run, by one
induction on the fuel: the item list only shrinks, `next_id` is
untouched, the deleted key and every current child of it are gone, and
any key that disappeared was itself fully cascaded, so no surviving
value's `parent_id` points to it. -/
theorem delete_post (fuel : Nat) :
    (∀ l id l' b, KeysMatch l → delete_fuel fuel l id = some (l', b) →
      l'.items.Sublist l.items ∧ l'.next_id = l.next_id ∧
      containsKey l'.items id = false ∧
      (∀ e ∈ l'.items, e.2.parent_id ≠ some id) ∧
      (∀ k, containsKey l.items k = true → containsKey l'.items k = false →
        ∀ e ∈ l'.items, e.2.parent_id ≠ some k)) ∧
    (∀ l ids l1, KeysMatch l → goSubs fuel l ids = some l1 →
      l1.items.Sublist l.items ∧ l1.next_id = l.next_id ∧
      (∀ c ∈ ids, containsKey l1.items c = false) ∧
      (∀ k, containsKey l.items k = true → containsKey l1.items k = false →
        ∀ e ∈ l1.items, e.2.parent_id ≠ some k)) := by
  induction fuel with
  | zero =>
    constructor
    · intro l id l' b _ hdel
      simp [delete_fuel_zero] at hdel
    · intro l ids l1 _ hgo
      cases ids with
      | nil =>
        simp [goSubs_nil] at hgo
        subst hgo
        refine ⟨List.Sublist.refl _, rfl, by simp, ?_⟩
        intro k h1 h2
        rw [h1] at h2
        cases h2
      | cons c rest =>
        simp [goSubs_cons, delete_fuel_zero] at hgo
  | succ fuel ih =>
    have hD : ∀ l id l' b, KeysMatch l → delete_fuel (fuel + 1) l id = some (l', b) →
        l'.items.Sublist l.items ∧ l'.next_id = l.next_id ∧
        containsKey l'.items id = false ∧
        (∀ e ∈ l'.items, e.2.parent_id ≠ some id) ∧
        (∀ k, containsKey l.items k = true → containsKey l'.items k = false →
          ∀ e ∈ l'.items, e.2.parent_id ≠ some k) := by
      intro l id l' b hkm hdel
      rw [delete_fuel_succ] at hdel
      cases hgo : goSubs fuel l (subIds l id) with
      | none => rw [hgo] at hdel; cases hdel
      | some l1 =>
        rw [hgo] at hdel
        simp only [Option.some.injEq, Prod.mk.injEq] at hdel
        obtain ⟨hl', _⟩ := hdel
        obtain ⟨hsub1, hnext1, hcs1, hd1⟩ := ih.2 l (subIds l id) l1 hkm hgo
        have hl'items : l'.items = removeKey l1.items id := by rw [← hl']
        have hl'next : l'.next_id = l1.next_id := by rw [← hl']
        have hsubrem : l'.items.Sublist l1.items := by
          rw [hl'items]; exact removeKey_sublist _ _
        have hCid : ∀ e ∈ l'.items, e.2.parent_id ≠ some id := by
          intro e he hp
          have hel1 : e ∈ l1.items := hsubrem.subset he
          have hel : e ∈ l.items := hsub1.subset hel1
          have hdesc : Descends l id e.2.id := ⟨e, hel, hp, rfl⟩
          have hcsub : e.2.id ∈ subIds l id := mem_subIds.mpr hdesc
          have hfalse := hcs1 e.2.id hcsub
          have htrue : containsKey l1.items e.2.id = true := by
            have := containsKey_of_mem hel1
            rwa [hkm e hel] at this
          rw [htrue] at hfalse
          cases hfalse
        refine ⟨hsubrem.trans hsub1, by rw [hl'next, hnext1], ?_, hCid, ?_⟩
        · rw [hl'items]; exact containsKey_removeKey_self _ _
        · intro k hkl hkl' e he hp
          by_cases hk : k = id
          · exact hCid e he (hk ▸ hp)
          · have hkl1 : containsKey l1.items k = false := by
              rw [hl'items, containsKey_removeKey_ne hk] at hkl'
              exact hkl'
            exact hd1 k hkl hkl1 e (hsubrem.subset he) hp
    refine ⟨hD, ?_⟩
    intro l ids
    induction ids generalizing l with
    | nil =>
      intro l1 _ hgo
      simp [goSubs_nil] at hgo
      subst hgo
      refine ⟨List.Sublist.refl _, rfl, by simp, ?_⟩
      intro k h1 h2
      rw [h1] at h2
      cases h2
    | cons c rest ihrest =>
      intro l1 hkm hgo
      rw [goSubs_cons] at hgo
      cases hdel : delete_fuel (fuel + 1) l c with
      | none => rw [hdel] at hgo; cases hgo
      | some r =>
        obtain ⟨r1, r2⟩ := r
        rw [hdel] at hgo
        obtain ⟨hsubr, hnextr, hcr, hCr, hdr⟩ := hD l c r1 r2 hkm hdel
        have hkmr : KeysMatch r1 := keysMatch_of_subset hsubr.subset hkm
        obtain ⟨hsub2, hnext2, hcs2, hd2⟩ := ihrest r1 l1 hkmr hgo
        refine ⟨hsub2.trans hsubr, by rw [hnext2, hnextr], ?_, ?_⟩
        · intro c' hc'
          rcases List.mem_cons.mp hc' with h | h
          · subst h
            exact containsKey_false_mono hsub2.subset hcr
          · exact hcs2 c' h
        · intro k hkl hkl1 e he hp
          cases hkr1 : containsKey r1.items k with
          | true => exact hd2 k hkr1 hkl1 e he hp
          | false => exact hdr k hkl hkr1 e (hsub2.subset he) hp

/-- A completed run only ever removes bindings and never touches
`next_id` (no invariant needed). -/
theorem delete_shrinks (fuel : Nat) :
    (∀ l id l' b, delete_fuel fuel l id = some (l', b) →
      l'.items.Sublist l.items ∧ l'.next_id = l.next_id) ∧
    (∀ l ids l1, goSubs fuel l ids = some l1 →
      l1.items.Sublist l.items ∧ l1.next_id = l.next_id) := by
  induction fuel with
  | zero =>
    constructor
    · intro l id l' b hdel
      simp [delete_fuel_zero] at hdel
    · intro l ids l1 hgo
      cases ids with
      | nil =>
        simp [goSubs_nil] at hgo
        subst hgo
        exact ⟨List.Sublist.refl _, rfl⟩
      | cons c rest =>
        simp [goSubs_cons, delete_fuel_zero] at hgo
  | succ fuel ih =>
    have hD : ∀ l id l' b, delete_fuel (fuel + 1) l id = some (l', b) →
        l'.items.Sublist l.items ∧ l'.next_id = l.next_id := by
      intro l id l' b hdel
      rw [delete_fuel_succ] at hdel
      cases hgo : goSubs fuel l (subIds l id) with
      | none => rw [hgo] at hdel; cases hdel
      | some l1 =>
        rw [hgo] at hdel
        simp only [Option.some.injEq, Prod.mk.injEq] at hdel
        obtain ⟨hl', _⟩ := hdel
        obtain ⟨hsub1, hnext1⟩ := ih.2 l (subIds l id) l1 hgo
        constructor
        · rw [← hl']
          exact (removeKey_sublist _ _).trans hsub1
        · rw [← hl']
          exact hnext1
    refine ⟨hD, ?_⟩
    intro l ids
    induction ids generalizing l with
    | nil =>
      intro l1 hgo
      simp [goSubs_nil] at hgo
      subst hgo
      exact ⟨List.Sublist.refl _, rfl⟩
    | cons c rest ihrest =>
      intro l1 hgo
      rw [goSubs_cons] at hgo
      cases hdel : delete_fuel (fuel + 1) l c with
      | none => rw [hdel] at hgo; cases hgo
      | some r =>
        obtain ⟨r1, r2⟩ := r
        rw [hdel] at hgo
        obtain ⟨hsubr, hnextr⟩ := hD l c r1 r2 hdel
        obtain ⟨hsub2, hnext2⟩ := ihrest r1 l1 hgo
        exact ⟨hsub2.trans hsubr, by rw [hnext2, hnextr]⟩

/-- A completed run only removes bindings whose key is reachable from
the deleted id along child links of the initial collection. -/
theorem delete_removes_only (fuel : Nat) :
    (∀ l id l' b, delete_fuel fuel l id = some (l', b) →
      ∀ e ∈ l.items, e ∉ l'.items → Relation.ReflTransGen (Descends l) id e.1) ∧
    (∀ l ids l1, goSubs fuel l ids = some l1 →
      ∀ e ∈ l.items, e ∉ l1.items →
        ∃ c ∈ ids, Relation.ReflTransGen (Descends l) c e.1) := by
  induction fuel with
  | zero =>
    constructor
    · intro l id l' b hdel
      simp [delete_fuel_zero] at hdel
    · intro l ids l1 hgo
      cases ids with
      | nil =>
        simp [goSubs_nil] at hgo
        subst hgo
        intro e he hne
        exact absurd he hne
      | cons c rest =>
        simp [goSubs_cons, delete_fuel_zero] at hgo
  | succ fuel ih =>
    have hD : ∀ l id l' b, delete_fuel (fuel + 1) l id = some (l', b) →
        ∀ e ∈ l.items, e ∉ l'.items → Relation.ReflTransGen (Descends l) id e.1 := by
      intro l id l' b hdel e he hne
      rw [delete_fuel_succ] at hdel
      cases hgo : goSubs fuel l (subIds l id) with
      | none => rw [hgo] at hdel; cases hdel
      | some l1 =>
        rw [hgo] at hdel
        simp only [Option.some.injEq, Prod.mk.injEq] at hdel
        obtain ⟨hl', _⟩ := hdel
        by_cases hel1 : e ∈ l1.items
        · have hne1 : e ∉ removeKey l1.items id := by
            rw [← hl'] at hne
            exact hne
          have hkey : e.1 = id := by
            by_contra hk
            exact hne1 (mem_removeKey.mpr ⟨hel1, hk⟩)
          rw [hkey]
        · obtain ⟨c, hc, hrtg⟩ := ih.2 l (subIds l id) l1 hgo e he hel1
          exact Relation.ReflTransGen.head (mem_subIds.mp hc) hrtg
    refine ⟨hD, ?_⟩
    intro l ids
    induction ids generalizing l with
    | nil =>
      intro l1 hgo
      simp [goSubs_nil] at hgo
      subst hgo
      intro e he hne
      exact absurd he hne
    | cons c rest ihrest =>
      intro l1 hgo e he hne
      rw [goSubs_cons] at hgo
      cases hdel : delete_fuel (fuel + 1) l c with
      | none => rw [hdel] at hgo; cases hgo
      | some r =>
        obtain ⟨r1, r2⟩ := r
        rw [hdel] at hgo
        by_cases her : e ∈ r1.items
        · obtain ⟨c', hc', hrtg⟩ := ihrest r1 l1 hgo e her hne
          have hsub := ((delete_shrinks (fuel + 1)).1 l c r1 r2 hdel).1
          exact ⟨c', List.mem_cons_of_mem c hc',
            hrtg.mono (fun a b hab => descends_mono hsub.subset hab)⟩
        · exact ⟨c, List.mem_cons_self c rest, hD l c r1 r2 hdel e he her⟩

/-- If every child chain starting at the deleted id is shorter than the
fuel, the run completes. -/
theorem delete_total (fuel : Nat) :
    (∀ l id, (∀ cs, List.Chain (Descends l) id cs → cs.length < fuel) →
      (delete_fuel fuel l id).isSome) ∧
    (∀ l ids, (∀ c ∈ ids, ∀ cs, List.Chain (Descends l) c cs → cs.length < fuel) →
      (goSubs fuel l ids).isSome) := by
  induction fuel with
  | zero =>
    constructor
    · intro l id h
      have := h [] List.Chain.nil
      omega
    · intro l ids h
      cases ids with
      | nil => simp [goSubs_nil]
      | cons c rest =>
        have := h c (List.mem_cons_self c rest) [] List.Chain.nil
        omega
  | succ fuel ih =>
    have hD : ∀ l id, (∀ cs, List.Chain (Descends l) id cs → cs.length < fuel + 1) →
        (delete_fuel (fuel + 1) l id).isSome := by
      intro l id h
      rw [delete_fuel_succ]
      have hg : (goSubs fuel l (subIds l id)).isSome := by
        apply ih.2
        intro c hc cs hcs
        have := h (c :: cs) (List.Chain.cons (mem_subIds.mp hc) hcs)
        simp at this
        omega
      cases hgo : goSubs fuel l (subIds l id) with
      | none => rw [hgo] at hg; cases hg
      | some l1 => rfl
    refine ⟨hD, ?_⟩
    intro l ids
    induction ids generalizing l with
    | nil =>
      intro _
      simp [goSubs_nil]
    | cons c rest ihrest =>
      intro h
      rw [goSubs_cons]
      have hd : (delete_fuel (fuel + 1) l c).isSome :=
        hD l c (h c (List.mem_cons_self c rest))
      cases hdel : delete_fuel (fuel + 1) l c with
      | none => rw [hdel] at hd; cases hd
      | some r =>
        obtain ⟨r1, r2⟩ := r
        have hsub := ((delete_shrinks (fuel + 1)).1 l c r1 r2 hdel).1
        show (goSubs (fuel + 1) r1 rest).isSome = true
        apply ihrest r1
        intro c' hc' cs hcs
        exact h c' (List.mem_cons_of_mem c hc') cs
          (hcs.imp (fun a b hab => descends_mono hsub.subset hab))

/-- Every element of a child chain is the end of a nonempty child path
from its start. -/
theorem chain_transGen {l : TodoList} {a b : Nat} {cs : List Nat}
    (h : List.Chain (Descends l) a cs) (hb : b ∈ cs) :
    Relation.TransGen (Descends l) a b := by
  induction cs generalizing a with
  | nil => cases hb
  | cons x xs ih =>
    rcases List.chain_cons.mp h with ⟨hax, hxs⟩
    rcases List.mem_cons.mp hb with rfl | hbxs
    · exact Relation.TransGen.single hax
    · exact Relation.TransGen.head hax (ih hxs hbxs)

theorem exists_dup_split {cs : List Nat} (h : ¬ cs.Nodup) :
    ∃ a l1 l2 l3, cs = l1 ++ a :: (l2 ++ a :: l3) := by
  induction cs with
  | nil => exact absurd List.nodup_nil h
  | cons x xs ih =>
    by_cases hx : x ∈ xs
    · obtain ⟨s, t, rfl⟩ := List.append_of_mem hx
      exact ⟨x, [], s, t, rfl⟩
    · have hxs : ¬ xs.Nodup := fun hn => h (List.nodup_cons.mpr ⟨hx, hn⟩)
      obtain ⟨a, l1, l2, l3, rfl⟩ := ih hxs
      exact ⟨a, x :: l1, l2, l3, rfl⟩

/-- When no cycle is reachable from `id`, a child chain from `id` never
repeats an element. -/
theorem chain_nodup_of_acyclicFrom {l : TodoList} {id : Nat}
    (hac : AcyclicFrom l id) {cs : List Nat}
    (h : List.Chain (Descends l) id cs) : cs.Nodup := by
  by_contra hnd
  obtain ⟨a, l1, l2, l3, rfl⟩ := exists_dup_split hnd
  have h1 : List.Chain (Descends l) a (l2 ++ a :: l3) := (List.chain_split.mp h).2
  have hcycle : Relation.TransGen (Descends l) a a := chain_transGen h1 (by simp)
  have hreach : Relation.ReflTransGen (Descends l) id a :=
    (chain_transGen h (by simp)).to_reflTransGen
  exact hac a hreach hcycle

theorem chain_subset_ids {l : TodoList} {a : Nat} {cs : List Nat}
    (h : List.Chain (Descends l) a cs) :
    ∀ b ∈ cs, b ∈ l.items.map (fun e => e.2.id) := by
  induction cs generalizing a with
  | nil => simp
  | cons x xs ih =>
    rcases List.chain_cons.mp h with ⟨hax, hxs⟩
    intro b hb
    rcases List.mem_cons.mp hb with rfl | hbxs
    · rcases hax with ⟨e, he, hp, hid⟩
      exact List.mem_map.mpr ⟨e, he, hid⟩
    · exact ih hxs b hbxs

/-- Chains from `id` are no longer than the collection itself, because
their elements are pairwise-distinct stored ids. -/
theorem chain_length_le {l : TodoList} {id : Nat} (hac : AcyclicFrom l id)
    {cs : List Nat} (h : List.Chain (Descends l) id cs) :
    cs.length ≤ l.items.length := by
  have hnd := chain_nodup_of_acyclicFrom hac h
  have hsubset : cs ⊆ l.items.map (fun e => e.2.id) :=
    fun b hb => chain_subset_ids h b hb
  have := (List.subperm_of_subset hnd hsubset).length_le
  simpa using this

/-- The fuel `|items| + 1` used by `delete_item` completes whenever no
parent cycle is reachable from the deleted id. -/
theorem delete_item_isSome_of_acyclicFrom {l : TodoList} {id : Nat}
    (hac : AcyclicFrom l id) : (delete_item l id).isSome := by
  apply (delete_total (l.items.length + 1)).1
  intro cs hcs
  have := chain_length_le hac hcs
  omega

/-- In an association list with pairwise-distinct keys, entries are
determined by their key. -/
theorem assoc_nodup_eq {its : List (Nat × TodoItem)}
    (hnd : (its.map (fun e => e.1)).Nodup) {e e' : Nat × TodoItem}
    (he : e ∈ its) (he' : e' ∈ its) (hk : e.1 = e'.1) : e = e' := by
  induction its with
  | nil => cases he
  | cons x xs ih =>
    rw [List.map_cons, List.nodup_cons] at hnd
    rcases List.mem_cons.mp he with rfl | hexs
    · rcases List.mem_cons.mp he' with rfl | he'xs
      · rfl
      · exact absurd (List.mem_map.mpr ⟨e', he'xs, hk.symm⟩) hnd.1
    · rcases List.mem_cons.mp he' with rfl | he'xs
      · exact absurd (List.mem_map.mpr ⟨e, hexs, hk⟩) hnd.1
      · exact ih hnd.2 hexs he'xs

/-- A completed run removes every binding whose id is reachable from the
deleted id along child links, and leaves no binding whose `parent_id`
points at such an id. -/
theorem delete_removes_all {fuel : Nat} {l : TodoList} {target : Nat}
    {l' : TodoList} {b : Bool} (hnd : KeysNodup l) (hkm : KeysMatch l)
    (hdel : delete_fuel fuel l target = some (l', b)) :
    ∀ y, Relation.ReflTransGen (Descends l) target y →
      containsKey l'.items y = false ∧ ∀ e ∈ l'.items, e.2.parent_id ≠ some y := by
  obtain ⟨hsub, _, hcid, hcpar, hd⟩ := (delete_post fuel).1 l target l' b hkm hdel
  intro y hy
  induction hy with
  | refl => exact ⟨hcid, hcpar⟩
  | @tail z w hz hstep ihz =>
    obtain ⟨_, hparz⟩ := ihz
    rcases hstep with ⟨ey, hey, hp, hid⟩
    have heyNotIn : ey ∉ l'.items := fun hin => hparz ey hin (by rw [hp])
    have hkey : ey.1 = w := by rw [hkm ey hey, hid]
    have hcc : containsKey l'.items w = false := by
      rw [containsKey_eq_false_iff]
      intro e' he' hk'
      have he'l : e' ∈ l.items := hsub.subset he'
      have : e' = ey := assoc_nodup_eq hnd he'l hey (by rw [hk', hkey])
      exact heyNotIn (this ▸ he')
    refine ⟨hcc, ?_⟩
    have hcl : containsKey l.items w = true := by
      have := containsKey_of_mem hey
      rwa [hkey] at this
    exact hd w hcl hcc

/-- When the deleted id is present and no parent cycle is reachable from
it, the cascade cannot have removed the id itself before the final
`remove`, so the call reports success. -/
theorem delete_fuel_b_true {fuel : Nat} {l : TodoList} {id : Nat}
    {l' : TodoList} {b : Bool}
    (hdel : delete_fuel (fuel + 1) l id = some (l', b))
    (hc : containsKey l.items id = true) (hac : AcyclicFrom l id) : b = true := by
  rw [delete_fuel_succ] at hdel
  cases hgo : goSubs fuel l (subIds l id) with
  | none => rw [hgo] at hdel; cases hdel
  | some l1 =>
    rw [hgo] at hdel
    simp only [Option.some.injEq, Prod.mk.injEq] at hdel
    obtain ⟨_, hb⟩ := hdel
    rcases containsKey_iff.mp hc with ⟨et, het, hetk⟩
    cases hcl1 : containsKey l1.items id with
    | true => rw [← hb, hcl1]
    | false =>
      exfalso
      have hetNot : et ∉ l1.items := by
        intro hin
        have := containsKey_of_mem hin
        rw [hetk, hcl1] at this
        cases this
      obtain ⟨c, hcsub, hrtg⟩ :=
        (delete_removes_only fuel).2 l (subIds l id) l1 hgo et het hetNot
      have hdc : Descends l id c := mem_subIds.mp hcsub
      have hcycle : Relation.TransGen (Descends l) id id :=
        Relation.TransGen.head' hdc (hetk ▸ hrtg)
      exact hac id Relation.ReflTransGen.refl hcycle

theorem subIds_eq_nil {l : TodoList} {id : Nat}
    (h : ∀ e ∈ l.items, e.2.parent_id ≠ some id) : subIds l id = [] := by
  apply List.eq_nil_iff_forall_not_mem.mpr
  intro c hc
  rcases mem_subIds.mp hc with ⟨e, he, hp, _⟩
  exact h e he hp

/-- When the deleted id is not a key of the initial collection, the final
`remove` finds nothing and the call reports failure. -/
theorem delete_fuel_b_false {fuel : Nat} {l : TodoList} {id : Nat}
    {l' : TodoList} {b : Bool}
    (hdel : delete_fuel (fuel + 1) l id = some (l', b))
    (hc : containsKey l.items id = false) : b = false := by
  rw [delete_fuel_succ] at hdel
  cases hgo : goSubs fuel l (subIds l id) with
  | none => rw [hgo] at hdel; cases hdel
  | some l1 =>
    rw [hgo] at hdel
    simp only [Option.some.injEq, Prod.mk.injEq] at hdel
    obtain ⟨_, hb⟩ := hdel
    have hsub := ((delete_shrinks fuel).2 l (subIds l id) l1 hgo).1
    rw [← hb]
    exact containsKey_false_mono hsub.subset hc

/-- C1: on a collection satisfying the store invariants, deleting a
present id succeeds, removes the task and every descendant at every
depth, removes nothing else, and leaves no task whose `parent_id` points
at a deleted id. -/
theorem delete_cascades_of_storeInv (l : TodoList) (id : Nat)
    (hinv : StoreInv l) (hc : containsKey l.items id = true) :
    ∃ l', delete_item l id = some (l', true) ∧
      (∀ e ∈ l.items, Relation.ReflTransGen (Descends l) id e.2.id →
        containsKey l'.items e.2.id = false) ∧
      (∀ e ∈ l.items, ¬ Relation.ReflTransGen (Descends l) id e.2.id →
        e ∈ l'.items) ∧
      (∀ e ∈ l'.items, ∀ p, e.2.parent_id = some p →
        ¬ ∃ e0 ∈ l.items, e0.2.id = p ∧ Relation.ReflTransGen (Descends l) id p) := by
  obtain ⟨hnd, hkm, _, hacy⟩ := hinv
  have hacf := acyclicFrom_of_acyclic hacy id
  have hsome := delete_item_isSome_of_acyclicFrom hacf
  cases hdel : delete_item l id with
  | none => rw [hdel] at hsome; cases hsome
  | some r =>
    obtain ⟨l', b⟩ := r
    have hfuel : delete_fuel (l.items.length + 1) l id = some (l', b) := hdel
    have hb : b = true := delete_fuel_b_true hfuel hc hacf
    subst hb
    refine ⟨l', rfl, ?_, ?_, ?_⟩
    · intro e _ hrtg
      exact (delete_removes_all hnd hkm hfuel e.2.id hrtg).1
    · intro e he hnrtg
      by_contra hne
      have hrtg := (delete_removes_only (l.items.length + 1)).1 l id l' true hfuel e he hne
      rw [hkm e he] at hrtg
      exact hnrtg hrtg
    · rintro e he' p hp ⟨e0, _, _, hrtgp⟩
      exact (delete_removes_all hnd hkm hfuel p hrtgp).2 e he' hp

/-- C2 (amended): deleting an id that is not a key, on a collection in
which no task's `parent_id` references that id, is a no-op that returns
false, and the dispatcher does not save. -/
theorem delete_missing_id_noop (l : TodoList) (id : Nat)
    (hc : containsKey l.items id = false)
    (hnoorph : ∀ e ∈ l.items, e.2.parent_id ≠ some id) :
    delete_item l id = some (l, false) ∧ deleteCommand l id = some (l, false) := by
  have hdel : delete_item l id = some (l, false) := by
    rw [delete_item, delete_fuel_succ, subIds_eq_nil hnoorph, goSubs_nil]
    have : removeKey l.items id = l.items := removeKey_eq_self hc
    simp [this, hc]
  refine ⟨hdel, ?_⟩
  rw [deleteCommand, hdel]
  simp

/-- C2 counterexample: on a collection violating the no-orphan invariant
(a task whose `parent_id` references the absent id 1), deleting the
absent id 1 is not a no-op: the orphan task is removed even though the
call returns false. -/
theorem delete_missing_id_not_noop :
    containsKey ({ items := [(2, ⟨2, "a", false, some 1, ""⟩)], next_id := 3 } :
        TodoList).items 1 = false ∧
    delete_item { items := [(2, ⟨2, "a", false, some 1, ""⟩)], next_id := 3 } 1 =
      some ({ items := [], next_id := 3 }, false) ∧
    ({ items := [], next_id := 3 } : TodoList) ≠
      { items := [(2, ⟨2, "a", false, some 1, ""⟩)], next_id := 3 } := by
  refine ⟨by decide, by decide, by decide⟩

/-- C3: on a collection whose parent graph is acyclic, `delete_item`
terminates for every id — the recursion completes within the
`|items| + 1` fuel bound of `delete_item`. -/
theorem delete_item_terminates (l : TodoList) (hac : Acyclic l) (id : Nat) :
    (delete_item l id).isSome :=
  delete_item_isSome_of_acyclicFrom (acyclicFrom_of_acyclic hac id)

/-- C10 (amended): when keys match ids and no parent cycle is reachable
from `id`, deleting an absent id still cascades first: every task whose
`parent_id` is `Some id`, and every deeper descendant, is removed, yet
the call returns false. -/
theorem delete_cascades_orphans (l : TodoList) (id : Nat)
    (hnd : KeysNodup l) (hkm : KeysMatch l) (hacf : AcyclicFrom l id)
    (hc : containsKey l.items id = false) :
    ∃ l', delete_item l id = some (l', false) ∧
      (∀ e ∈ l'.items, e.2.parent_id ≠ some id) ∧
      (∀ e ∈ l.items, Relation.ReflTransGen (Descends l) id e.2.id →
        containsKey l'.items e.2.id = false) := by
  have hsome := delete_item_isSome_of_acyclicFrom hacf
  cases hdel : delete_item l id with
  | none => rw [hdel] at hsome; cases hsome
  | some r =>
    obtain ⟨l', b⟩ := r
    have hfuel : delete_fuel (l.items.length + 1) l id = some (l', b) := hdel
    have hb : b = false := delete_fuel_b_false hfuel hc
    subst hb
    refine ⟨l', rfl, ?_, ?_⟩
    · exact ((delete_post (l.items.length + 1)).1 l id l' false hkm hfuel).2.2.2.1
    · intro e _ hrtg
      exact (delete_removes_all hnd hkm hfuel e.2.id hrtg).1

/-- C10 counterexample: on a hand-editable collection whose key does not
match its task's id, deleting the absent id 1 removes nothing — the task
with `parent_id = Some 1` survives — so the cascade claim fails without
the key/id representation invariant. -/
theorem delete_orphans_key_mismatch :
    containsKey ({ items := [(7, ⟨3, "a", false, some 1, ""⟩)], next_id := 4 } :
        TodoList).items 1 = false ∧
    (∃ e ∈ ({ items := [(7, ⟨3, "a", false, some 1, ""⟩)], next_id := 4 } :
        TodoList).items, e.2.parent_id = some 1) ∧
    delete_item { items := [(7, ⟨3, "a", false, some 1, ""⟩)], next_id := 4 } 1 =
      some ({ items := [(7, ⟨3, "a", false, some 1, ""⟩)], next_id := 4 }, false) := by
  refine ⟨by decide, ⟨(7, ⟨3, "a", false, some 1, ""⟩), by decide, by decide⟩, by decide⟩

/-! ## Insertion sequences and the identity counter -/

/-- One successful insertion per element of the input list: each triple
carries the text, parent and timestamp passed to `add_item`. -/
def insertSeq (l : TodoList) (ins : List (String × Option Nat × String)) : TodoList :=
  ins.foldl (fun acc i => (acc.add_item i.1 i.2.1 i.2.2).1) l

/-- The multiset of task ids stored in the collection. -/
def idsOf (l : TodoList) : List Nat :=
  l.items.map (fun e => e.2.id)

theorem add_item_items (l : TodoList) (t : String) (p : Option Nat) (c : String) :
    (l.add_item t p c).1.items =
      (l.next_id, ⟨l.next_id, t, false, p, c⟩) ::
        l.items.filter (fun kt => kt.1 != l.next_id) := rfl

theorem add_item_next_id (l : TodoList) (t : String) (p : Option Nat) (c : String) :
    (l.add_item t p c).1.next_id = l.next_id + 1 := rfl

theorem add_item_ret (l : TodoList) (t : String) (p : Option Nat) (c : String) :
    (l.add_item t p c).2 = l.next_id := rfl

theorem insertSeq_next_id (l : TodoList) (ins : List (String × Option Nat × String)) :
    (insertSeq l ins).next_id = l.next_id + ins.length := by
  induction ins generalizing l with
  | nil => rfl
  | cons i rest ih =>
    rw [insertSeq, List.foldl_cons]
    have h2 := ih ((l.add_item i.1 i.2.1 i.2.2).1)
    rw [insertSeq] at h2
    rw [h2, add_item_next_id, List.length_cons]
    omega

theorem add_item_idBound_nodup {l : TodoList}
    (h : (∀ e ∈ l.items, e.2.id < l.next_id) ∧ (idsOf l).Nodup)
    (t : String) (p : Option Nat) (c : String) :
    (∀ e ∈ (l.add_item t p c).1.items, e.2.id < (l.add_item t p c).1.next_id) ∧
      (idsOf (l.add_item t p c).1).Nodup := by
  obtain ⟨hlt, hnd⟩ := h
  have hfsub : (l.items.filter (fun kt => kt.1 != l.next_id)).Sublist l.items :=
    List.filter_sublist l.items
  constructor
  · intro e he
    rw [add_item_items] at he
    rw [add_item_next_id]
    rcases List.mem_cons.mp he with rfl | hemem
    · exact Nat.lt_succ_self l.next_id
    · exact Nat.lt_succ_of_lt (hlt e (hfsub.subset hemem))
  · rw [idsOf, add_item_items, List.map_cons, List.nodup_cons]
    constructor
    · intro hmem
      rcases List.mem_map.mp hmem with ⟨e, he, hide⟩
      have := hlt e (hfsub.subset he)
      simp only [] at hide
      omega
    · exact List.Nodup.sublist (hfsub.map _) hnd

theorem insertSeq_idBound_nodup (l : TodoList)
    (h : (∀ e ∈ l.items, e.2.id < l.next_id) ∧ (idsOf l).Nodup)
    (ins : List (String × Option Nat × String)) :
    (∀ e ∈ (insertSeq l ins).items, e.2.id < (insertSeq l ins).next_id) ∧
      (idsOf (insertSeq l ins)).Nodup := by
  induction ins generalizing l with
  | nil => exact h
  | cons i rest ih =>
    rw [insertSeq, List.foldl_cons]
    exact ih _ (add_item_idBound_nodup h i.1 i.2.1 i.2.2)

/-- C4: starting from the fresh empty collection, N successful
insertions leave `next_id = 1 + N`, the stored ids are pairwise
distinct, and every insertion returns the value `next_id` held before
it. -/
theorem insert_sequence_spec (ins : List (String × Option Nat × String)) :
    (insertSeq TodoList.new ins).next_id = 1 + ins.length ∧
    (idsOf (insertSeq TodoList.new ins)).Nodup ∧
    ∀ (l : TodoList) (t : String) (p : Option Nat) (c : String),
      (l.add_item t p c).2 = l.next_id := by
  refine ⟨?_, ?_, fun l t p c => add_item_ret l t p c⟩
  · rw [insertSeq_next_id]
    simp [TodoList.new]
  · exact (insertSeq_idBound_nodup TodoList.new (by simp [TodoList.new, idsOf]) ins).2

/-! ## Completion flips -/

theorem mem_setCompleted {its : List (Nat × TodoItem)} {k : Nat} {b : Bool}
    {e : Nat × TodoItem} (he : e ∈ setCompleted its k b) :
    ∃ e0 ∈ its, e.1 = e0.1 ∧ e.2.id = e0.2.id := by
  rcases List.mem_map.mp he with ⟨e0, he0, hf⟩
  by_cases hk : e0.1 == k
  · refine ⟨e0, he0, ?_, ?_⟩ <;> rw [← hf] <;> simp [hk]
  · refine ⟨e0, he0, ?_, ?_⟩ <;> rw [← hf] <;> simp [hk]

theorem find?_map_keypres (f : Nat × TodoItem → Nat × TodoItem)
    (hf : ∀ kt, (f kt).1 = kt.1) (its : List (Nat × TodoItem)) (k : Nat) :
    (its.map f).find? (fun kt => kt.1 == k) =
      (its.find? (fun kt => kt.1 == k)).map f := by
  induction its with
  | nil => rfl
  | cons x xs ih =>
    by_cases hx : (x.1 == k) = true
    · have h1 : List.find? (fun kt => kt.1 == k) (f x :: List.map f xs) = some (f x) :=
        List.find?_cons_of_pos _ (by show ((f x).1 == k) = true; rw [hf]; exact hx)
      have h2 : List.find? (fun kt => kt.1 == k) (x :: xs) = some x :=
        List.find?_cons_of_pos _ hx
      rw [List.map_cons, h1, h2]
      rfl
    · have h1 : List.find? (fun kt => kt.1 == k) (f x :: List.map f xs) =
          List.find? (fun kt => kt.1 == k) (List.map f xs) :=
        List.find?_cons_of_neg _ (by show ¬ ((f x).1 == k) = true; rw [hf]; exact hx)
      have h2 : List.find? (fun kt => kt.1 == k) (x :: xs) =
          List.find? (fun kt => kt.1 == k) xs :=
        List.find?_cons_of_neg _ hx
      rw [List.map_cons, h1, h2, ih]

theorem lookupKey_setCompleted (its : List (Nat × TodoItem)) (k k' : Nat) (b : Bool) :
    lookupKey (setCompleted its k b) k' =
      (its.find? (fun kt => kt.1 == k')).map
        (fun kt => if kt.1 == k then { kt.2 with completed := b } else kt.2) := by
  rw [lookupKey, setCompleted,
    find?_map_keypres _ (fun kt => by by_cases h : kt.1 = k <;> simp [h]) its k']
  cases its.find? (fun kt => kt.1 == k') with
  | none => rfl
  | some kt => by_cases h : kt.1 = k <;> simp [h]

/-- The shared shape of `complete_item` and `uncomplete_item`: flip the
`completed` field at the key to `b` if the key exists. -/
def flipOp (b : Bool) (l : TodoList) (id : Nat) : TodoList × Bool :=
  match lookupKey l.items id with
  | some _ => ({ items := setCompleted l.items id b, next_id := l.next_id }, true)
  | none => (l, false)

theorem complete_eq_flipOp (l : TodoList) (id : Nat) :
    l.complete_item id = flipOp true l id := rfl

theorem uncomplete_eq_flipOp (l : TodoList) (id : Nat) :
    l.uncomplete_item id = flipOp false l id := rfl

theorem flipOp_frame (b : Bool) (l : TodoList) (id : Nat) :
    (flipOp b l id).2 = containsKey l.items id ∧
    (flipOp b l id).1.next_id = l.next_id ∧
    (containsKey l.items id = false → (flipOp b l id).1 = l) ∧
    (∀ e ∈ l.items, e.1 ≠ id → e ∈ (flipOp b l id).1.items) ∧
    (∀ e ∈ (flipOp b l id).1.items, e.1 ≠ id → e ∈ l.items) ∧
    (∀ e ∈ l.items, e.1 = id →
      (e.1, { e.2 with completed := b }) ∈ (flipOp b l id).1.items) := by
  cases hlk : lookupKey l.items id with
  | none =>
    have hcf : containsKey l.items id = false := lookupKey_eq_none_iff.mp hlk
    rw [flipOp, hlk]
    refine ⟨hcf.symm, rfl, fun _ => rfl, fun e he _ => he, fun e he _ => he, ?_⟩
    intro e he hk
    exact absurd hk (containsKey_eq_false_iff.mp hcf e he)
  | some t =>
    have hct : containsKey l.items id = true := by
      rcases Option.map_eq_some'.mp hlk with ⟨kt, hfind, _⟩
      exact containsKey_iff.mpr
        ⟨kt, List.mem_of_find?_eq_some hfind, by simpa using List.find?_some hfind⟩
    rw [flipOp, hlk]
    refine ⟨hct.symm, rfl, ?_, ?_, ?_, ?_⟩
    · intro hcf
      rw [hct] at hcf
      cases hcf
    · intro e he hk
      apply List.mem_map.mpr
      refine ⟨e, he, ?_⟩
      simp [hk]
    · intro e he hk
      rcases List.mem_map.mp he with ⟨e0, he0, hf⟩
      by_cases h0 : e0.1 = id
      · exfalso
        apply hk
        rw [← hf]
        simp [h0]
      · rw [← hf]
        simpa [h0] using he0
    · intro e he hk
      apply List.mem_map.mpr
      refine ⟨e, he, ?_⟩
      simp [hk]

/-- C7: `complete_item` returns exactly key membership; on success the
only change is the target task's `completed` field becoming true (all
its other fields, every other binding, and `next_id` are untouched); on
a missing key the collection is returned unchanged.  Symmetrically for
`uncomplete_item` with false. -/
theorem complete_uncomplete_frame (l : TodoList) (id : Nat) :
    ((l.complete_item id).2 = containsKey l.items id ∧
     (l.complete_item id).1.next_id = l.next_id ∧
     (containsKey l.items id = false → (l.complete_item id).1 = l) ∧
     (∀ e ∈ l.items, e.1 ≠ id → e ∈ (l.complete_item id).1.items) ∧
     (∀ e ∈ (l.complete_item id).1.items, e.1 ≠ id → e ∈ l.items) ∧
     (∀ e ∈ l.items, e.1 = id →
        (e.1, { e.2 with completed := true }) ∈ (l.complete_item id).1.items)) ∧
    ((l.uncomplete_item id).2 = containsKey l.items id ∧
     (l.uncomplete_item id).1.next_id = l.next_id ∧
     (containsKey l.items id = false → (l.uncomplete_item id).1 = l) ∧
     (∀ e ∈ l.items, e.1 ≠ id → e ∈ (l.uncomplete_item id).1.items) ∧
     (∀ e ∈ (l.uncomplete_item id).1.items, e.1 ≠ id → e ∈ l.items) ∧
     (∀ e ∈ l.items, e.1 = id →
        (e.1, { e.2 with completed := false }) ∈ (l.uncomplete_item id).1.items)) := by
  rw [complete_eq_flipOp, uncomplete_eq_flipOp]
  exact ⟨flipOp_frame true l id, flipOp_frame false l id⟩

theorem setCompleted_setCompleted (its : List (Nat × TodoItem)) (k : Nat) (b b' : Bool) :
    setCompleted (setCompleted its k b) k b' = setCompleted its k b' := by
  rw [setCompleted, setCompleted, setCompleted, List.map_map]
  apply List.map_congr_left
  intro kt _
  by_cases h : kt.1 = k
  · simp [Function.comp, h]
  · simp [Function.comp, h]

theorem flipOp_idem (b : Bool) (l : TodoList) (id : Nat) :
    (flipOp b (flipOp b l id).1 id).1 = (flipOp b l id).1 := by
  cases hlk : lookupKey l.items id with
  | none =>
    have h1 : flipOp b l id = (l, false) := by rw [flipOp, hlk]
    show (flipOp b (flipOp b l id).1 id).1 = (flipOp b l id).1
    rw [h1]
    show (flipOp b l id).1 = l
    rw [h1]
  | some t =>
    have h1 : flipOp b l id =
        ({ items := setCompleted l.items id b, next_id := l.next_id }, true) := by
      rw [flipOp, hlk]
    rw [h1]
    rcases Option.map_eq_some'.mp hlk with ⟨kt, hfind, _⟩
    have hlk2 : lookupKey (setCompleted l.items id b) id =
        some (if kt.1 == id then { kt.2 with completed := b } else kt.2) := by
      rw [lookupKey_setCompleted, hfind]
      rfl
    rw [flipOp]
    simp only [hlk2]
    simp [setCompleted_setCompleted]

theorem todoItem_set_completed_self {x : TodoItem} {b : Bool} (h : x.completed = b) :
    { x with completed := b } = x := by
  cases x
  simp_all

theorem complete_then_uncomplete_restore (l : TodoList) (id : Nat) (t : TodoItem)
    (hnd : KeysNodup l) (hlk : lookupKey l.items id = some t)
    (hcomp : t.completed = false) :
    ((l.complete_item id).1.uncomplete_item id).1 = l := by
  rw [complete_eq_flipOp, uncomplete_eq_flipOp]
  have h1 : flipOp true l id =
      ({ items := setCompleted l.items id true, next_id := l.next_id }, true) := by
    rw [flipOp, hlk]
  rw [h1]
  rcases Option.map_eq_some'.mp hlk with ⟨kt, hfind, hsnd⟩
  have hlk2 : lookupKey (setCompleted l.items id true) id =
      some (if kt.1 == id then { kt.2 with completed := true } else kt.2) := by
    rw [lookupKey_setCompleted, hfind]
    rfl
  rw [flipOp]
  simp only [hlk2]
  show ({ items := setCompleted (setCompleted l.items id true) id false, next_id := l.next_id } : TodoList) = l
  rw [setCompleted_setCompleted]
  have hktmem : kt ∈ l.items := List.mem_of_find?_eq_some hfind
  have hktkey : kt.1 = id := by simpa using List.find?_some hfind
  have hitems : setCompleted l.items id false = l.items := by
    rw [setCompleted]
    have hpt : ∀ kt' ∈ l.items,
        (if kt'.1 == id then (kt'.1, { kt'.2 with completed := false }) else kt') =
          (fun x => x) kt' := by
      intro kt' hmem
      show _ = kt'
      by_cases hk : kt'.1 = id
      · have heq : kt' = kt := assoc_nodup_eq hnd hmem hktmem (by rw [hk, hktkey])
        have hcf : kt'.2.completed = false := by rw [heq, hsnd]; exact hcomp
        simp only [hk, beq_self_eq_true, if_true]
        rw [todoItem_set_completed_self hcf, ← hk]
      · simp [hk]
    rw [List.map_congr_left hpt]
    exact List.map_id' l.items
  rw [hitems]

/-- C6 (amended): `complete` then `uncomplete` on a present id restores
the collection provided the task was not already completed; `complete`
and `uncomplete` are each idempotent on the collection
unconditionally. -/
theorem complete_uncomplete_roundtrip (l : TodoList) (id : Nat) :
    (∀ t, KeysNodup l → lookupKey l.items id = some t → t.completed = false →
      ((l.complete_item id).1.uncomplete_item id).1 = l) ∧
    ((l.complete_item id).1.complete_item id).1 = (l.complete_item id).1 ∧
    ((l.uncomplete_item id).1.uncomplete_item id).1 = (l.uncomplete_item id).1 := by
  refine ⟨fun t hnd hlk hc => complete_then_uncomplete_restore l id t hnd hlk hc, ?_, ?_⟩
  · simp only [complete_eq_flipOp]
    exact flipOp_idem true l id
  · simp only [uncomplete_eq_flipOp]
    exact flipOp_idem false l id

/-- C6 counterexample: on a task that is already completed, `complete`
then `uncomplete` does not return the collection to its original state —
the `completed` flag ends up false though it started true. -/
theorem complete_uncomplete_not_involutive :
    containsKey ({ items := [(1, ⟨1, "a", true, none, ""⟩)], next_id := 2 } :
        TodoList).items 1 = true ∧
    ((TodoList.complete_item { items := [(1, ⟨1, "a", true, none, ""⟩)], next_id := 2 }
        1).1.uncomplete_item 1).1 ≠
      { items := [(1, ⟨1, "a", true, none, ""⟩)], next_id := 2 } := by
  refine ⟨by decide, by decide⟩

/-- C5: the invariants "every key equals its task's own id" and
"`next_id` is strictly greater than every stored id" hold for the fresh
collection and are preserved by insertion, completion flips (both
directions), and completed deletions. -/
theorem store_ops_preserve_inv :
    (KeysMatch TodoList.new ∧ NextIdGt TodoList.new) ∧
    (∀ l t p c, KeysMatch l ∧ NextIdGt l →
      KeysMatch (l.add_item t p c).1 ∧ NextIdGt (l.add_item t p c).1) ∧
    (∀ l id, KeysMatch l ∧ NextIdGt l →
      KeysMatch (l.complete_item id).1 ∧ NextIdGt (l.complete_item id).1) ∧
    (∀ l id, KeysMatch l ∧ NextIdGt l →
      KeysMatch (l.uncomplete_item id).1 ∧ NextIdGt (l.uncomplete_item id).1) ∧
    (∀ l id l' b, KeysMatch l ∧ NextIdGt l → delete_item l id = some (l', b) →
      KeysMatch l' ∧ NextIdGt l') := by
  have hflip : ∀ (bb : Bool) (l : TodoList) (id : Nat), KeysMatch l ∧ NextIdGt l →
      KeysMatch (flipOp bb l id).1 ∧ NextIdGt (flipOp bb l id).1 := by
    intro bb l id h
    obtain ⟨hkm, hgt⟩ := h
    cases hlk : lookupKey l.items id with
    | none =>
      rw [flipOp, hlk]
      exact ⟨hkm, hgt⟩
    | some t =>
      rw [flipOp, hlk]
      constructor
      · intro e he
        rcases mem_setCompleted he with ⟨e0, he0, hk, hid⟩
        show e.1 = e.2.id
        rw [hk, hid]
        exact hkm e0 he0
      · intro e he
        rcases mem_setCompleted he with ⟨e0, he0, _, hid⟩
        show e.2.id < l.next_id
        rw [hid]
        exact hgt e0 he0
  refine ⟨⟨fun e he => absurd he (List.not_mem_nil e),
      fun e he => absurd he (List.not_mem_nil e)⟩, ?_, ?_, ?_, ?_⟩
  · intro l t p c h
    obtain ⟨hkm, hgt⟩ := h
    constructor
    · intro e he
      rw [add_item_items] at he
      rcases List.mem_cons.mp he with rfl | hm
      · rfl
      · exact hkm e ((List.filter_sublist l.items).subset hm)
    · intro e he
      rw [add_item_items] at he
      show e.2.id < (l.add_item t p c).1.next_id
      rw [add_item_next_id]
      rcases List.mem_cons.mp he with rfl | hm
      · exact Nat.lt_succ_self _
      · exact Nat.lt_succ_of_lt (hgt e ((List.filter_sublist l.items).subset hm))
  · intro l id h
    rw [complete_eq_flipOp]
    exact hflip true l id h
  · intro l id h
    rw [uncomplete_eq_flipOp]
    exact hflip false l id h
  · intro l id l' b h hdel
    obtain ⟨hkm, hgt⟩ := h
    obtain ⟨hsub, hnext⟩ := (delete_shrinks (l.items.length + 1)).1 l id l' b hdel
    refine ⟨keysMatch_of_subset hsub.subset hkm, ?_⟩
    intro e he
    rw [hnext]
    exact hgt e (hsub.subset he)

/-- C8: the `sub` command with an absent parent id fails without
creating any task and without incrementing `next_id`: the collection
handed to the dispatcher is returned untouched and nothing is saved. -/
theorem sub_missing_parent_rejected (l : TodoList) (p : Nat) (t c : String)
    (h : containsKey l.items p = false) : subCommand l p t c = (l, false) := by
  rw [subCommand, h]
  simp

/-! ## Persistence codec

The program persists the collection with `serde_json` (src/main.rs lines
126-140); the derive-generated codec is not part of this repository's
sources, so it is modelled from the spec at the level of JSON documents:
strings are carried as-is (quoting/escaping is the transport layer), and
numbers are `Nat`. -/

/-- Abstract syntax of the JSON documents exchanged with the data
file. -/
inductive Json where
  | jnum (n : Nat)
  | jstr (s : String)
  | jbool (b : Bool)
  | jnull
  | jobj (fields : List (String × Json))

def digitChar (d : Nat) : Char :=
  Char.ofNat (48 + d)

def digitVal (c : Char) : Option Nat :=
  if 48 ≤ c.toNat && c.toNat ≤ 57 then some (c.toNat - 48) else none

/-- Modelled from the spec: serde serializes the `u32` keys of the items
map as decimal digit strings. -/
def natKey (n : Nat) : String :=
  if n = 0 then ⟨[digitChar 0]⟩ else ⟨((Nat.digits 10 n).reverse).map digitChar⟩

def charsVal : List Char → Option (List Nat)
  | [] => some []
  | c :: cs =>
    match digitVal c, charsVal cs with
    | some d, some ds => some (d :: ds)
    | _, _ => none

/-- Modelled from the spec: parsing a decimal digit string back into a
`u32` key; any non-digit or empty string is a parse failure. -/
def parseNatKey (s : String) : Option Nat :=
  match charsVal s.data with
  | some ds => if ds = [] then none else some (Nat.ofDigits 10 ds.reverse)
  | none => none

/-- Modelled from the spec: the serde-derived serialization of one
`TodoItem` — an object carrying the five fields in declaration order,
with `parent_id` encoded as null or a number. -/
def encodeItem (t : TodoItem) : Json :=
  Json.jobj [("id", Json.jnum t.id), ("text", Json.jstr t.text),
    ("completed", Json.jbool t.completed),
    ("parent_id", match t.parent_id with
      | none => Json.jnull
      | some p => Json.jnum p),
    ("created_at", Json.jstr t.created_at)]

/-- Modelled from the spec: the serde-derived deserialization of one
`TodoItem`; any shape mismatch is a parse failure. -/
def decodeItem : Json → Option TodoItem
  | Json.jobj [("id", Json.jnum i), ("text", Json.jstr t),
      ("completed", Json.jbool c), ("parent_id", pj),
      ("created_at", Json.jstr ca)] =>
    match pj with
    | Json.jnull => some ⟨i, t, c, none, ca⟩
    | Json.jnum p => some ⟨i, t, c, some p, ca⟩
    | _ => none
  | _ => none

def decodeEntries : List (String × Json) → Option (List (Nat × TodoItem))
  | [] => some []
  | (k, j) :: rest =>
    match parseNatKey k, decodeItem j, decodeEntries rest with
    | some n, some t, some es => some ((n, t) :: es)
    | _, _, _ => none

/-- Modelled from the spec: `save_todos` (src/main.rs lines 136-140)
writes the whole collection as one JSON object holding the keyed item
map and `next_id`. -/
def save_todos (l : TodoList) : Json :=
  Json.jobj
    [("items", Json.jobj (l.items.map (fun kt => (natKey kt.1, encodeItem kt.2)))),
     ("next_id", Json.jnum l.next_id)]

def decodeList : Json → Option TodoList
  | Json.jobj [("items", Json.jobj fs), ("next_id", Json.jnum n)] =>
    match decodeEntries fs with
    | some es => some ⟨es, n⟩
    | none => none
  | _ => none

/-- Modelled from the spec: `load_todos` (src/main.rs lines 126-134)
parses the stored document and falls back to the fresh empty collection
whenever it is absent or malformed. -/
def load_todos (j : Json) : TodoList :=
  match decodeList j with
  | some l => l
  | none => TodoList.new

theorem digitVal_digitChar (d : Nat) (h : d < 10) :
    digitVal (digitChar d) = some d := by
  interval_cases d <;> decide

theorem charsVal_map_digitChar {ds : List Nat} (h : ∀ d ∈ ds, d < 10) :
    charsVal (ds.map digitChar) = some ds := by
  induction ds with
  | nil => rfl
  | cons d rest ih =>
    rw [List.map_cons, charsVal, digitVal_digitChar d (h d (List.mem_cons_self d rest)),
      ih (fun d' hd' => h d' (List.mem_cons_of_mem d hd'))]

theorem parseNatKey_natKey (n : Nat) : parseNatKey (natKey n) = some n := by
  by_cases h0 : n = 0
  · subst h0
    rfl
  · rw [natKey, if_neg h0, parseNatKey]
    have hlt : ∀ d ∈ (Nat.digits 10 n).reverse, d < 10 := by
      intro d hd
      exact Nat.digits_lt_base (by omega) (List.mem_reverse.mp hd)
    have hchars : charsVal (((Nat.digits 10 n).reverse).map digitChar) =
        some (Nat.digits 10 n).reverse := charsVal_map_digitChar hlt
    have hdata : (String.mk (((Nat.digits 10 n).reverse).map digitChar)).data =
        ((Nat.digits 10 n).reverse).map digitChar := rfl
    rw [hdata, hchars]
    have hne : (Nat.digits 10 n).reverse ≠ [] := by
      intro hnil
      have := List.reverse_eq_nil_iff.mp hnil
      exact (Nat.digits_ne_nil_iff_ne_zero.mpr h0) this
    show (if (Nat.digits 10 n).reverse = [] then none
      else some (Nat.ofDigits 10 ((Nat.digits 10 n).reverse).reverse)) = some n
    rw [if_neg hne, List.reverse_reverse, Nat.ofDigits_digits]

theorem decodeItem_encodeItem (t : TodoItem) : decodeItem (encodeItem t) = some t := by
  cases t with
  | mk i tx c p ca => cases p <;> rfl

theorem decodeEntries_encode (its : List (Nat × TodoItem)) :
    decodeEntries (its.map (fun kt => (natKey kt.1, encodeItem kt.2))) = some its := by
  induction its with
  | nil => rfl
  | cons kt rest ih =>
    rw [List.map_cons, decodeEntries, parseNatKey_natKey, decodeItem_encodeItem, ih]

/-- C9: serializing a collection and deserializing the result reproduces
an equal collection — same keyed items (ids, text, completed flags,
parent links, timestamps) and the same `next_id`. -/
theorem save_load_roundtrip (l : TodoList) : load_todos (save_todos l) = l := by
  have h1 : decodeList (save_todos l) = some l := by
    rw [save_todos, decodeList, decodeEntries_encode]
  rw [load_todos, h1]

/-! ## Concrete sample collections and witnesses -/

/-- A decidable certificate for acyclicity: every stored parent id is
strictly smaller than its child's id (true of every collection the store
builds, since ids are minted in increasing order). -/
def parentsSmaller (l : TodoList) : Bool :=
  l.items.all (fun kt => match kt.2.parent_id with
    | some p => p < kt.2.id
    | none => true)

theorem acyclic_of_parentsSmaller {l : TodoList} (h : parentsSmaller l = true) :
    Acyclic l := by
  apply acyclic_of_ranking l (fun n => n)
  intro e he p hp
  have hall := List.all_eq_true.mp h e he
  rw [hp] at hall
  exact of_decide_eq_true hall

/-- A two-task chain: root 1 with sub-item 2. -/
def sampleChain : TodoList :=
  { items := [(1, ⟨1, "r", false, none, ""⟩), (2, ⟨2, "s", false, some 1, ""⟩)],
    next_id := 3 }

/-- An orphan chain: tasks 2 and 3 hang (transitively) off the absent
id 1. -/
def sampleOrphans : TodoList :=
  { items := [(2, ⟨2, "a", false, some 1, ""⟩), (3, ⟨3, "b", false, some 2, ""⟩)],
    next_id := 4 }

/-- A single not-yet-completed root task. -/
def sampleDone : TodoList :=
  { items := [(1, ⟨1, "a", false, none, ""⟩)], next_id := 2 }

theorem delete_cascades_witness :
    ∃ l', delete_item sampleChain 1 = some (l', true) ∧
      (∀ e ∈ sampleChain.items,
        Relation.ReflTransGen (Descends sampleChain) 1 e.2.id →
          containsKey l'.items e.2.id = false) ∧
      (∀ e ∈ sampleChain.items,
        ¬ Relation.ReflTransGen (Descends sampleChain) 1 e.2.id → e ∈ l'.items) ∧
      (∀ e ∈ l'.items, ∀ p, e.2.parent_id = some p →
        ¬ ∃ e0 ∈ sampleChain.items, e0.2.id = p ∧
            Relation.ReflTransGen (Descends sampleChain) 1 p) :=
  delete_cascades_of_storeInv sampleChain 1
    ⟨by unfold KeysNodup; decide, by unfold KeysMatch; decide,
     by unfold NextIdGt; decide, acyclic_of_parentsSmaller (by decide)⟩
    (by decide)

theorem delete_missing_noop_witness :
    delete_item sampleDone 5 = some (sampleDone, false) ∧
      deleteCommand sampleDone 5 = some (sampleDone, false) :=
  delete_missing_id_noop sampleDone 5 (by decide) (by decide)

theorem delete_terminates_witness : (delete_item sampleChain 7).isSome :=
  delete_item_terminates sampleChain (acyclic_of_parentsSmaller (by decide)) 7

theorem store_inv_witness :
    KeysMatch (TodoList.new.add_item ("a") none ("t")).1 ∧
      NextIdGt (TodoList.new.add_item ("a") none ("t")).1 :=
  store_ops_preserve_inv.2.1 TodoList.new ("a") none ("t") store_ops_preserve_inv.1

theorem complete_uncomplete_roundtrip_witness :
    ((sampleDone.complete_item 1).1.uncomplete_item 1).1 = sampleDone ∧
      ((sampleDone.complete_item 1).1.complete_item 1).1 =
        (sampleDone.complete_item 1).1 :=
  ⟨(complete_uncomplete_roundtrip sampleDone 1).1 ⟨1, "a", false, none, ""⟩
      (by unfold KeysNodup; decide) (by decide) (by decide),
   (complete_uncomplete_roundtrip sampleDone 1).2.1⟩

theorem complete_frame_witness : (sampleDone.complete_item 5).1 = sampleDone :=
  (complete_uncomplete_frame sampleDone 5).1.2.2.1 (by decide)

theorem sub_missing_parent_witness :
    subCommand sampleDone 99 ("z") ("t") = (sampleDone, false) :=
  sub_missing_parent_rejected sampleDone 99 ("z") ("t") (by decide)

theorem delete_cascades_orphans_witness :
    ∃ l', delete_item sampleOrphans 1 = some (l', false) ∧
      (∀ e ∈ l'.items, e.2.parent_id ≠ some 1) ∧
      (∀ e ∈ sampleOrphans.items,
        Relation.ReflTransGen (Descends sampleOrphans) 1 e.2.id →
          containsKey l'.items e.2.id = false) :=
  delete_cascades_orphans sampleOrphans 1 (by unfold KeysNodup; decide)
    (by unfold KeysMatch; decide)
    (acyclicFrom_of_acyclic (acyclic_of_parentsSmaller (by decide)) 1)
    (by decide)
